import Mathlib

/-!
Verification development for the permission-aware route/menu tree resolution
engine of `src/store/modules/permission.ts`.

The shallow embedding below follows the source file. Helpers that the store
imports from elsewhere in the repository (`filter` from treeHelper,
`transformRouteToMenu`, `flatMultiLevelRoutes`, the reserved routes and the
`transformObjToRoute` component wrapper) are not under `src/`; those are
modelled from the spec and carry a doc comment saying so. `JSON.parse` is a
language builtin; it is modelled as an explicit decode parameter
(`String → Option _`, `none` = the parse threw). A JavaScript value that may
be either a raw (still serialized) string or a decoded object is modelled by
the sum types `MetaVal` and `RolesField`.
-/

namespace PermStore

/-- The `meta.roles` field of a record: either the raw serialized string as
delivered by the backend, or the decoded list (after `JSON.parse` succeeded
in `parseRouteRoles`). -/
inductive RolesField where
  | raw (s : String)
  | parsed (l : List String)
deriving DecidableEq

/-- Decoded route metadata: the recognized optional keys read by
`routeFilter`, `routeRemoveIgnoreFilter`, the menu comparator and
`patchHomeAffix` (source lines 122-169, 276-278). -/
structure RMeta where
  roles : Option RolesField := none
  ignoreRoute : Option Bool := none
  orderNo : Option Int := none
  affix : Option Bool := none
  parentName : Option String := none
deriving DecidableEq

/-- The `meta` field of a route/record: raw serialized string (before, or
after a failed, `JSON.parse`) or a decoded object. -/
inductive MetaVal where
  | raw (s : String)
  | obj (m : RMeta)
deriving DecidableEq

/-- A route node (`AppRouteRecordRaw`): the fields of the source that the
engine reads. The opaque `component` reference is external and not modelled. -/
structure RouteNode where
  name : String := ""
  path : String := ""
  redirect : Option String := none
  meta : Option MetaVal := none
  children : List RouteNode := []

/-- A menu node (`Menu`): what `transformRouteToMenu` produces and the
front/back menu lists store. -/
structure MenuNode where
  name : String := ""
  path : String := ""
  meta : Option MetaVal := none
  children : List MenuNode := []

/-- A flat backend menu record as delivered by `getBackActiveMenuList`:
`id`, `pid` (0 = root) and the route-shaped fields, with `meta` still a
serialized string. -/
structure BackRecord where
  id : Int
  pid : Int
  name : String := ""
  path : String := ""
  redirect : Option String := none
  meta : Option String := none
deriving DecidableEq

/-- Fallback record used to make list indexing total. -/
def dfltRec : BackRecord := { id := 0, pid := 0 }

/-- The permission mode enum (`PermissionModeEnum`). -/
inductive PermissionMode where
  | ROLE
  | ROUTE_MAPPING
  | BACK
deriving DecidableEq

/-- The pinia store state (`PermissionState`, source lines 27-42). -/
structure PermissionState where
  permCodeList : List String := []
  isDynamicAddedRoute : Bool := false
  lastBuildMenuTime : Nat := 0
  backMenuList : List MenuNode := []
  frontMenuList : List MenuNode := []

/-- The initial store state (source lines 46-61): everything empty/zero/false. -/
def permInitState : PermissionState := {}

/-- The `resetState` action (source lines 100-105), exactly the four
assignments the source performs. -/
def resetState (s : PermissionState) : PermissionState :=
  { s with isDynamicAddedRoute := false, permCodeList := [],
           backMenuList := [], lastBuildMenuTime := 0 }

/-- The `setBackMenuList` action (source lines 84-87): stores the list and
stamps `lastBuildMenuTime` (with the current clock `now`) only when the list
is non-empty. -/
def setBackMenuList (now : Nat) (l : List MenuNode) (s : PermissionState) : PermissionState :=
  let s1 := { s with backMenuList := l }
  if l.length > 0 then { s1 with lastBuildMenuTime := now } else s1

/-- JavaScript `String.prototype.startsWith` on the character lists. -/
def strStarts (s pre : String) : Bool := pre.toList.isPrefixOf s.toList

/-- JavaScript `String.prototype.includes` on the character lists: is `pat`
a contiguous substring? -/
def listIncl (pat : List Char) : List Char → Bool
  | [] => pat.isEmpty
  | c :: cs => pat.isPrefixOf (c :: cs) || listIncl pat cs

/-- The role predicate `routeFilter` (source lines 122-129):
`const \x7b roles \x7d = meta || \x7b\x7d; if (!roles) return true;
return roleList.some((role) => roles.includes(role));`.
A raw (undecoded) `meta` yields `roles` undefined; a raw `roles` string is
truthy unless empty, and `.includes` is then the substring test. -/
def routeFilter (roleList : List String) (r : RouteNode) : Bool :=
  match r.meta with
  | some (.obj m) =>
    match m.roles with
    | none => true
    | some (.raw s) =>
      if s = "" then true
      else roleList.any fun role => listIncl role.toList s.toList
    | some (.parsed l) => roleList.any fun role => l.contains role
  | _ => true

/-- The ignore predicate `routeRemoveIgnoreFilter` (source lines 131-137):
`const \x7b ignoreRoute \x7d = meta || \x7b\x7d; return !ignoreRoute;`. -/
def routeRemoveIgnoreFilter (r : RouteNode) : Bool :=
  match r.meta with
  | some (.obj m) => !(m.ignoreRoute.getD false)
  | _ => true

/-- `Object.assign(\x7b\x7d, route.meta, \x7b affix: true \x7d)` (source
line 155): keeps the decoded fields and sets `affix`; a raw-string or absent
`meta` contributes no recognized keys. -/
def affixAssign : Option MetaVal → RMeta
  | some (.obj m) => { m with affix := some true }
  | _ => { affix := some true }

/-- Path prefix handed to a recursive `patcher` call: the source does
`if (parentPath) parentPath = parentPath + '/'` at fun entry. -/
def childPfx (cur : String) : String := if cur = "" then cur else cur ++ "/"

/-- `currentPath` of the walk (source line 150): the node's own path if
absolute, else the parent prefix joined with it. -/
def curPath (pp : String) (r : RouteNode) : String :=
  if strStarts r.path "/" then r.path else pp ++ r.path

/-- The value of the mutable `homePath` after visiting node `r` itself: on a
full match with a declared redirect the search is retargeted to the redirect
destination (source lines 151-153), otherwise it is unchanged. -/
def homeNext (hp pp : String) (r : RouteNode) : String :=
  if curPath pp r = hp then r.redirect.getD hp else hp

/-- The inner `patcher` walk of `patchHomeAffix` (source lines 146-161),
with the in-place mutation and the thrown `Error('end')` made explicit:
the result is the rewritten list, the current value of the mutable captured
`homePath` (reassigned on a matching `redirect`), and whether the walk threw
(first full match found, affix set, all recursion aborted). -/
def patcher : String → String → List RouteNode → List RouteNode × String × Bool
  | hp, _, [] => ([], hp, false)
  | hp, pp, r :: rest =>
    if curPath pp r = hp ∧ r.redirect = none then
      ({ r with meta := some (.obj (affixAssign r.meta)) } :: rest, hp, true)
    else
      let res := patcher (homeNext hp pp r) (childPfx (curPath pp r)) r.children
      if res.2.2 then
        ({ r with children := res.1 } :: rest, res.2.1, true)
      else
        let rres := patcher res.2.1 pp rest
        ({ r with children := res.1 } :: rres.1, rres.2.1, rres.2.2)
  termination_by _ _ rs => sizeOf rs
  decreasing_by all_goals (cases ‹RouteNode› <;> simp <;> omega)

/-- `patchHomeAffix` (source lines 142-169) with the resolved home path
passed in: empty input returns immediately, otherwise the walk runs with an
empty parent prefix and its mutations are the result. -/
def patchHomeAffix (hp : String) (rs : List RouteNode) : List RouteNode :=
  if rs.isEmpty then rs else (patcher hp "" rs).1

/-- `wrapperRouterComponent` (source lines 174-182): rebuilds children
recursively; the `component` field it assigns from `ROUTE_MAP` is an opaque
external reference outside this model, so on the modelled fields only the
recursive rebuild remains. -/
def wrapperRouterComponent : List RouteNode → List RouteNode
  | [] => []
  | r :: rs =>
    { r with children := wrapperRouterComponent r.children } :: wrapperRouterComponent rs
  termination_by rs => sizeOf rs
  decreasing_by all_goals (cases ‹RouteNode› <;> simp <;> omega)

/-- The per-roles update of `parseRouteRoles` (source lines 190-196):
`JSON.parse(route.meta.roles)` guarded by truthiness, failure caught and
logged, the field keeping its raw value. `dr` is the decode. -/
def prrRoles (dr : String → Option (List String)) : Option RolesField → Option RolesField
  | some (.raw s) =>
    if s = "" then some (.raw s)
    else match dr s with
      | some l => some (.parsed l)
      | none => some (.raw s)
  | rf => rf

/-- `parseRouteRoles` (source lines 184-200): recurse into children, then
decode `meta.roles` when present, keeping the raw value if the parse throws. -/
def parseRouteRoles (dr : String → Option (List String)) : List RouteNode → List RouteNode
  | [] => []
  | r :: rs =>
    let r1 := { r with children := parseRouteRoles dr r.children }
    let r2 := match r1.meta with
      | some (.obj m) => { r1 with meta := some (.obj { m with roles := prrRoles dr m.roles }) }
      | _ => r1
    r2 :: parseRouteRoles dr rs
  termination_by rs => sizeOf rs
  decreasing_by all_goals (cases ‹RouteNode› <;> simp <;> omega)

/-- State of the `handleBackMenuTree` pass over the shared record objects:
per-index `meta` values, per-index `children` fields (`none` = the field was
never created) and the `menus` root list. Indices refer to positions in the
input `menuList`. -/
structure BTState where
  metas : Nat → Option MetaVal
  childIdx : Nat → Option (List Nat)
  roots : List Nat

/-- The `pid` of record `i` of the input list. -/
def pidOf (l : List BackRecord) (i : Nat) : Int := (l.getD i dfltRec).pid

/-- The `id` of record `i` of the input list. -/
def idOf (l : List BackRecord) (i : Nat) : Int := (l.getD i dfltRec).id

/-- Index of the first record satisfying `p` (JavaScript `Array.find`
returns that very object; mutation through it is mutation at this index). -/
def findIdxA (p : BackRecord → Bool) : List BackRecord → Option Nat
  | [] => none
  | r :: rs => if p r then some 0 else (findIdxA p rs).map (· + 1)

/-- Index of `menuList.find((m) => m.id === menu.pid)` for record `i`
(source line 220). -/
def pidx (l : List BackRecord) (i : Nat) : Option Nat :=
  findIdxA (fun r => r.id = pidOf l i) l

/-- The meta-decoding step of `handleBackMenuTree` (source lines 207-213):
`if (menu.meta) menu.meta = JSON.parse(menu.meta)` inside try/catch — an
absent or empty-string (falsy) meta is skipped, a failed parse keeps the
raw value. -/
def metaStep (dm : String → Option RMeta) : Option MetaVal → Option MetaVal
  | some (.raw s) =>
    if s = "" then some (.raw s)
    else match dm s with
      | some o => some (.obj o)
      | none => some (.raw s)
  | m => m

/-- One `forEach` iteration of `handleBackMenuTree` (source lines 205-230)
on record `i`: decode meta in place; a `pid = 0` record is pushed to the
root list; otherwise the parent is looked up by id — when the lookup finds
nothing the unguarded `parentMenu.children` access throws (`.error`),
otherwise record `i` is appended to the parent's `children` (created on
first use). -/
def hbmtStep (dm : String → Option RMeta) (l : List BackRecord) (st : BTState) (i : Nat) :
    Except Unit BTState :=
  let st1 : BTState :=
    { st with metas := fun i' => if i' = i then metaStep dm (st.metas i') else st.metas i' }
  if pidOf l i = 0 then
    .ok { st1 with roots := st1.roots ++ [i] }
  else
    match pidx l i with
    | none => .error ()
    | some j =>
      .ok { st1 with childIdx := fun j' =>
              if j' = j then some ((st1.childIdx j').getD [] ++ [i]) else st1.childIdx j' }

/-- Run `hbmtStep` over the given record indices, short-circuiting on the
thrown error. -/
def hbmtGo (dm : String → Option RMeta) (l : List BackRecord) :
    List Nat → BTState → Except Unit BTState
  | [], st => .ok st
  | i :: is, st =>
    match hbmtStep dm l st i with
    | .error e => .error e
    | .ok st' => hbmtGo dm l is st'

/-- Initial pass state: every record still carries its raw serialized meta,
no `children` field exists, the root list is empty. -/
def initBT (l : List BackRecord) : BTState :=
  { metas := fun i => (l.getD i dfltRec).meta.map MetaVal.raw,
    childIdx := fun _ => none,
    roots := [] }

/-- `handleBackMenuTree` (source lines 203-234): the single `forEach` pass
over all records, producing the shared object graph (roots plus per-record
children) or the thrown orphan-lookup error. -/
def handleBackMenuTree (dm : String → Option RMeta) (l : List BackRecord) :
    Except Unit BTState :=
  hbmtGo dm l (List.range l.length) (initBT l)

/-- The `children` list of record `i` in the built graph (absent field reads
as empty). -/
def childList (st : BTState) (i : Nat) : List Nat := (st.childIdx i).getD []

/-- Materialize the route tree rooted at record `i` of the built graph.
`fuel` bounds the depth; on the acyclic inputs the theorems below consider,
`l.length + 1` is always enough. -/
def materializeNode (l : List BackRecord) (st : BTState) : Nat → Nat → RouteNode
  | 0, _ => { name := "", path := "", redirect := none, meta := none, children := [] }
  | fuel + 1, i =>
    let r := l.getD i dfltRec
    { name := r.name, path := r.path, redirect := r.redirect, meta := st.metas i,
      children := (childList st i).map fun j => materializeNode l st fuel j }

/-- The whole `try` block of `buildRoutesAction` (source lines 243-249):
fetch (`raw`, `.error` = the network call threw), tree-build, component
wrapping and role parsing; any throw is caught and logged, leaving
`backRouteList` undefined (`none`). -/
def fetchBackRoutes (dm : String → Option RMeta) (dr : String → Option (List String))
    (raw : Except Unit (List BackRecord)) : Option (List RouteNode) :=
  match raw with
  | .error _ => none
  | .ok l =>
    match handleBackMenuTree dm l with
    | .error _ => none
    | .ok st =>
      some (parseRouteRoles dr (wrapperRouterComponent
        (st.roots.map fun i => materializeNode l st (l.length + 1) i)))

/-- Modelled from the spec: `TreeFilter.filter`'s child pruning — the route
tree helper (`filter` imported from treeHelper) is not under `src/`. At each
level below the top, a child is kept exactly when the predicate passes, and
the filter recurses into the kept children. -/
def filterForest (p : RouteNode → Bool) : List RouteNode → List RouteNode
  | [] => []
  | r :: rs =>
    if p r then { r with children := filterForest p r.children } :: filterForest p rs
    else filterForest p rs
  termination_by rs => sizeOf rs
  decreasing_by all_goals (cases ‹RouteNode› <;> simp <;> omega)

/-- Modelled from the spec: `TreeFilter.filter` — not under `src/`. It is
structural: it recurses into every node's children and replaces them with
the filtered children, but does not remove the top-level nodes themselves;
the engine's separate `routes.filter(pred)` pass prunes the roots. -/
def filter (p : RouteNode → Bool) (rs : List RouteNode) : List RouteNode :=
  rs.map fun r => { r with children := filterForest p r.children }

/-- Modelled from the spec: the path resolution of `RouteMenuConverter` and
`LevelFlattener` — a path starting with the separator is absolute, anything
else is joined to the parent's resolved absolute path. -/
def resolvePath (parent : String) (p : String) : String :=
  if strStarts p "/" then p else if parent = "" then p else parent ++ "/" ++ p

/-- Modelled from the spec: `RouteMenuConverter.toMenu`'s recursion — the
`transformRouteToMenu` helper is not under `src/`. Each route maps 1:1 to a
menu node carrying name/path/meta; with `fillPath` the effective path of a
relative child is the parent's resolved absolute path separator-joined with
it. `pp` is the parent's resolved path. -/
def toMenuGo (fillPath : Bool) (pp : String) : List RouteNode → List MenuNode
  | [] => []
  | r :: rs =>
    let np := if fillPath then resolvePath pp r.path else r.path
    { name := r.name, path := np, meta := r.meta,
      children := toMenuGo fillPath np r.children } :: toMenuGo fillPath pp rs
  termination_by rs => sizeOf rs
  decreasing_by all_goals (cases ‹RouteNode› <;> simp <;> omega)

/-- Modelled from the spec: `transformRouteToMenu(routes, routerMapping?)` —
not under `src/`. Conversion starts with an empty parent prefix. -/
def transformRouteToMenu (fillPath : Bool) (rs : List RouteNode) : List MenuNode :=
  toMenuGo fillPath "" rs

/-- View a meta value as its decoded object (absent/raw reads as no keys). -/
def asObj : Option MetaVal → RMeta
  | some (.obj m) => m
  | _ => {}

/-- Meta rewrite of a hoisted node, modelled from the spec: the flattener
retains a back-reference to the original parent in the metadata. -/
def metaWithParent (m : Option MetaVal) (pname : String) : Option MetaVal :=
  some (.obj { asObj m with parentName := some pname })

/-- Modelled from the spec: `LevelFlattener`'s hoisting of every node at
depth ≥ 2 — `flatMultiLevelRoutes` is not under `src/`. Each such node
becomes a direct (childless) entry with its full resolved absolute path and
a meta back-reference to its original parent. `pp` is the resolved path of
the node's parent and `pname` that parent's name. -/
def flattenDescend (pp : String) (pname : String) : List RouteNode → List RouteNode
  | [] => []
  | r :: rs =>
    let np := resolvePath pp r.path
    { r with path := np, children := [], meta := metaWithParent r.meta pname }
      :: (flattenDescend np r.name r.children ++ flattenDescend pp pname rs)
  termination_by rs => sizeOf rs
  decreasing_by all_goals (cases ‹RouteNode› <;> simp <;> omega)

/-- Modelled from the spec: `LevelFlattener` on one root — direct children
stay (losing their now-hoisted grandchildren), every deeper node is hoisted
to become a direct child of the root. Flattening an already two-level root
is a no-op. -/
def flattenRoot (r : RouteNode) : RouteNode :=
  { r with children :=
      r.children.flatMap fun c =>
        { c with children := [] }
          :: flattenDescend (resolvePath r.path c.path) c.name c.children }

/-- Modelled from the spec: `flatMultiLevelRoutes` — not under `src/`.
Rewrites each root of the forest to depth ≤ 2. -/
def flatMultiLevelRoutes (rs : List RouteNode) : List RouteNode :=
  rs.map flattenRoot

/-- Modelled from the spec: `transformObjToRoute` — not under `src/`. It
resolves each record's opaque `component` reference from its `name`; the
component is outside this model, so on the modelled fields only the
recursive traversal remains. -/
def transformObjToRoute : List RouteNode → List RouteNode
  | [] => []
  | r :: rs =>
    { r with children := transformObjToRoute r.children } :: transformObjToRoute rs
  termination_by rs => sizeOf rs
  decreasing_by all_goals (cases ‹RouteNode› <;> simp <;> omega)

/-- Modelled from the spec: the reserved catch-all route `PAGE_NOT_FOUND_ROUTE`
(`/@/router/routes/basic`, not under `src/`). -/
def PAGE_NOT_FOUND_ROUTE : RouteNode :=
  { name := "PageNotFound", path := "/:path(.*)*", redirect := none, meta := none,
    children := [] }

/-- Modelled from the spec: the reserved route `ERROR_LOG_ROUTE`
(`/@/router/routes/basic`, not under `src/`). -/
def ERROR_LOG_ROUTE : RouteNode :=
  { name := "ErrorLog", path := "/error-log", redirect := none, meta := none,
    children := [] }

/-- The sort key of the menu comparator (source lines 276-278):
`(a.meta?.orderNo || 0)` — an absent, raw or missing `orderNo` reads as 0. -/
def menuKey (m : MenuNode) : Int :=
  match m.meta with
  | some (.obj o) => o.orderNo.getD 0
  | _ => 0

/-- Stable insertion of one element into a list sorted by `menuKey`. -/
def insSorted (a : MenuNode) : List MenuNode → List MenuNode
  | [] => [a]
  | b :: l => if menuKey a ≤ menuKey b then a :: b :: l else b :: insSorted a l

/-- `menuList.sort((a, b) => (a.meta?.orderNo || 0) - (b.meta?.orderNo || 0))`
(source lines 276-278), modelled as the stable sort by `menuKey` that
ECMAScript 2019+ `Array.prototype.sort` guarantees for this consistent
comparator. -/
def jsSort (l : List MenuNode) : List MenuNode := l.foldr insSorted []

/-- `buildRoutesAction`'s mode switch and common tail (source lines
251-331), taking the result of the fetch/build `try` block as
`backRouteList` (`none` = something in it threw, the variable is
undefined). `permCodes`/`menuFetch` are the BACK-mode network results,
`now` the clock for the back-menu timestamp, `s` the store state. Returns
the action's outcome (`.error` = an uncaught exception propagates to the
caller, as happens when `filter(undefined, …)` is evaluated) together with
the state after the side effects performed before any throw. -/
def buildRoutesCore (mode : PermissionMode) (roleList : List String) (homePath : String)
    (backRouteList : Option (List RouteNode))
    (permCodes : Except Unit (List String)) (menuFetch : Except Unit (List RouteNode))
    (now : Nat) (s : PermissionState) :
    Except Unit (List RouteNode) × PermissionState :=
  match mode with
  | .ROLE =>
    match backRouteList with
    | none => (.error (), s)
    | some l =>
      let routes := (filter (routeFilter roleList) l).filter (routeFilter roleList)
      let routes := flatMultiLevelRoutes routes
      (.ok (patchHomeAffix homePath (routes ++ [ERROR_LOG_ROUTE])), s)
  | .ROUTE_MAPPING =>
    match backRouteList with
    | none => (.error (), s)
    | some l =>
      let routes := (filter (routeFilter roleList) l).filter (routeFilter roleList)
      let menuList := transformRouteToMenu true routes
      let routes := (filter routeRemoveIgnoreFilter routes).filter routeRemoveIgnoreFilter
      let menuList := jsSort menuList
      let s := { s with frontMenuList := menuList }
      let routes := flatMultiLevelRoutes routes
      (.ok (patchHomeAffix homePath (routes ++ [ERROR_LOG_ROUTE])), s)
  | .BACK =>
    let pr : Option (List String) × List RouteNode :=
      match permCodes with
      | .error _ => (none, [])
      | .ok cs =>
        match menuFetch with
        | .error _ => (some cs, [])
        | .ok rl => (some cs, rl)
    let s := match pr.1 with
      | none => s
      | some cs => { s with permCodeList := cs }
    let routeList := transformObjToRoute pr.2
    let backMenu := transformRouteToMenu false routeList
    let s := setBackMenuList now backMenu s
    let routeList := (filter routeRemoveIgnoreFilter routeList).filter routeRemoveIgnoreFilter
    let routeList := flatMultiLevelRoutes routeList
    let routes := PAGE_NOT_FOUND_ROUTE :: routeList
    (.ok (patchHomeAffix homePath (routes ++ [ERROR_LOG_ROUTE])), s)

/-- One full `buildRoutesAction` pass (source lines 112-332): the
fetch/build `try` block runs first in every mode, then the mode switch and
the common tail. -/
def buildRoutesAction (mode : PermissionMode) (roleList : List String) (homePath : String)
    (dm : String → Option RMeta) (dr : String → Option (List String))
    (raw : Except Unit (List BackRecord))
    (permCodes : Except Unit (List String)) (menuFetch : Except Unit (List RouteNode))
    (now : Nat) (s : PermissionState) :
    Except Unit (List RouteNode) × PermissionState :=
  buildRoutesCore mode roleList homePath (fetchBackRoutes dm dr raw) permCodes menuFetch now s

/-- All nodes of a route forest: each root followed by the nodes of its
subtree, then the rest of the forest. -/
def allNodesF : List RouteNode → List RouteNode
  | [] => []
  | r :: rs => r :: (allNodesF r.children ++ allNodesF rs)
  termination_by rs => sizeOf rs
  decreasing_by all_goals (cases ‹RouteNode› <;> simp <;> omega)

/-- All nodes of a menu forest. -/
def allMenusF : List MenuNode → List MenuNode
  | [] => []
  | r :: rs => r :: (allMenusF r.children ++ allMenusF rs)
  termination_by rs => sizeOf rs
  decreasing_by all_goals (cases ‹MenuNode› <;> simp <;> omega)

/-- Does the node carry `meta.affix = true`? -/
def hasAffix (r : RouteNode) : Bool :=
  match r.meta with
  | some (.obj m) => m.affix == some true
  | _ => false

/-- Number of nodes of the forest marked `meta.affix = true`. -/
def countAffixF (rs : List RouteNode) : Nat :=
  ((allNodesF rs).filter hasAffix).length

/-- Erase the `affix` mark of a meta value, normalizing an absent or raw
meta to an empty object (what `Object.assign` would have started from). -/
def stripMeta (m : Option MetaVal) : Option MetaVal :=
  some (.obj { asObj m with affix := none })

/-- The forest with every node's `affix` mark erased (and metas normalized):
two forests with equal `stripAffixF` images differ at most in affix marks. -/
def stripAffixF : List RouteNode → List RouteNode
  | [] => []
  | r :: rs =>
    { r with meta := stripMeta r.meta, children := stripAffixF r.children }
      :: stripAffixF rs
  termination_by rs => sizeOf rs
  decreasing_by all_goals (cases ‹RouteNode› <;> simp <;> omega)

/-- Is the forest at most two levels deep (children have no children)? -/
def twoLevelB (rs : List RouteNode) : Bool :=
  rs.all fun r => r.children.all fun c => c.children.isEmpty

/-- Is the sibling list sorted (non-decreasing) by the menu sort key? -/
def sortedByKeyB : List MenuNode → Bool
  | [] => true
  | [_] => true
  | a :: b :: l => decide (menuKey a ≤ menuKey b) && sortedByKeyB (b :: l)

/-- Are all children lists, at every depth of the forest, sorted by the
menu key? -/
def menuDeepAll : List MenuNode → Bool
  | [] => true
  | r :: rs => (sortedByKeyB r.children && menuDeepAll r.children) && menuDeepAll rs
  termination_by rs => sizeOf rs
  decreasing_by all_goals (cases ‹MenuNode› <;> simp <;> omega)

/-- Is the menu forest sorted by `orderNo` at every nesting level — what the
spec asserts of the derived menu? -/
def menuSortedDeepB (l : List MenuNode) : Bool :=
  sortedByKeyB l && menuDeepAll l

/-- A node whose meta (and roles) are decoded — the well-typed nodes of the
spec's data model, where `meta.roles` is a sequence or absent. -/
def nodeWF (r : RouteNode) : Bool :=
  match r.meta with
  | none => true
  | some (.raw _) => false
  | some (.obj m) =>
    match m.roles with
    | some (.raw _) => false
    | _ => true

/-- The decoded roles list of a node, if any. -/
def metaRoles (r : RouteNode) : Option RolesField :=
  match r.meta with
  | some (.obj m) => m.roles
  | _ => none

/-- The forest of a successful action outcome (`.error` reads as empty). -/
def getOkD : Except Unit (List RouteNode) → List RouteNode
  | .ok l => l
  | .error _ => []

/-- The state of a successful `handleBackMenuTree` run (`.error` reads as
the empty graph). -/
def getOkBT : Except Unit BTState → BTState
  | .ok st => st
  | .error _ => { metas := fun _ => none, childIdx := fun _ => none, roots := [] }

/-- The claim's hypothesis on a backend list: every nonzero `pid` equals
some record's `id` (consistent parent references). -/
def consistentB (l : List BackRecord) : Bool :=
  l.all fun r => r.pid == 0 || l.any fun r' => r'.id == r.pid

/-- Does the parent chain of record `i` reach a root (`pid = 0`) within
`fuel` steps? Acyclicity of the parent references, in computable form. -/
def rootedB (l : List BackRecord) : Nat → Nat → Bool
  | 0, _ => false
  | fuel + 1, i =>
    pidOf l i == 0 ||
      match pidx l i with
      | none => false
      | some j => rootedB l fuel j

/-- Is record index `i` reachable from a root of the built graph within
`fuel` child-of steps? -/
def reachUp (st : BTState) (n : Nat) : Nat → Nat → Bool
  | 0, _ => false
  | fuel + 1, i =>
    st.roots.contains i ||
      (List.range n).any fun j => (childList st j).contains i && reachUp st n fuel j

/-- How often record index `i` occurs in the built graph: in the root list
plus in every record's children list. "Exactly once" makes the graph a
forest containing each record once. -/
def occCount (st : BTState) (n : Nat) (i : Nat) : Nat :=
  st.roots.count i + ((List.range n).map fun j => (childList st j).count i).sum

/-- The conclusion of claim C2 on one input list, computably: the build
succeeds, the roots are exactly the `pid = 0` records in input order, each
record's children are exactly the records whose `pid` equals its `id` in
input order, and every record occurs exactly once, reachable from a root. -/
def c2ConclusionB (dm : String → Option RMeta) (l : List BackRecord) : Bool :=
  match handleBackMenuTree dm l with
  | .error _ => false
  | .ok st =>
    let n := l.length
    st.roots == ((List.range n).filter fun i => pidOf l i == 0) &&
    ((List.range n).all fun i =>
      childList st i == ((List.range n).filter fun j => pidOf l j == idOf l i)) &&
    ((List.range n).all fun i => occCount st n i == 1 && reachUp st n n i)

/-- Did the computation return normally (no exception propagated)? -/
def exOk : Except Unit α → Bool
  | .ok _ => true
  | .error _ => false

/-- A decode that always throws (models `JSON.parse` failing on any input). -/
def d0 : String → Option RMeta := fun _ => none

/-- A roles decode that always throws. -/
def dr0 : String → Option (List String) := fun _ => none

/-- A plain route with an absolute path and no metadata. -/
def rA : RouteNode :=
  { name := "a", path := "/a", redirect := none, meta := none, children := [] }

/-- A backend list with an orphan record: record 2 references parent id 5,
which no record carries. -/
def orphanL : List BackRecord :=
  [{ id := 1, pid := 0, name := "m1", path := "/m1", redirect := none, meta := none },
   { id := 2, pid := 5, name := "m2", path := "m2", redirect := none, meta := none }]

/-- A store state with every side-effect value non-initial. -/
def s9 : PermissionState :=
  { permCodeList := ["c"], isDynamicAddedRoute := true, lastBuildMenuTime := 5,
    backMenuList := [{ name := "m", path := "/m", meta := none, children := [] }],
    frontMenuList := [{ name := "m", path := "/m", meta := none, children := [] }] }

/-- The child of the spec's worked example: relative path under the root. -/
def dashChild : RouteNode :=
  { name := "c", path := "child", redirect := none, meta := none, children := [] }

/-- The root of the spec's worked example: the home path with a redirect one
level down. -/
def dashRoot : RouteNode :=
  { name := "d", path := "/dash", redirect := some "/dash/child", meta := none,
    children := [dashChild] }

def menuIgnored (m : MenuNode) : Bool :=
  match m.meta with
  | some (.obj o) => o.ignoreRoute.getD false
  | _ => false

def ignoredNode : RouteNode :=
  { name := "ig", path := "/ig", redirect := none,
    meta := some (.obj { ignoreRoute := some true }), children := [] }

def unsortedRoot : RouteNode :=
  { name := "r", path := "/r", redirect := none, meta := none,
    children :=
      [{ name := "b", path := "b", redirect := none,
         meta := some (.obj { orderNo := some 2 }), children := [] },
       { name := "a", path := "a", redirect := none,
         meta := some (.obj { orderNo := some 1 }), children := [] }] }

def metaAt (l : List BackRecord) (i : Nat) : Option MetaVal :=
  (l.getD i dfltRec).meta.map MetaVal.raw

def expMeta (dm : String → Option RMeta) (l : List BackRecord) (k i : Nat) : Option MetaVal :=
  if i < k then metaStep dm (metaAt l i) else metaAt l i

def expRoots (l : List BackRecord) (k : Nat) : List Nat :=
  (List.range k).filter fun i => pidOf l i == 0

def expChildL (l : List BackRecord) (k j : Nat) : List Nat :=
  (List.range k).filter fun i => !(pidOf l i == 0) && pidx l i == some j

def expChild (l : List BackRecord) (k j : Nat) : Option (List Nat) :=
  if expChildL l k j = [] then none else some (expChildL l k j)

def Inv (dm : String → Option RMeta) (l : List BackRecord) (k : Nat) (st : BTState) : Prop :=
  st.roots = expRoots l k ∧ (∀ j, st.childIdx j = expChild l k j) ∧
    (∀ i, st.metas i = expMeta dm l k i)

def badL : List BackRecord :=
  [{ id := 1, pid := 0, name := "m", path := "/m", redirect := none, meta := some "BAD" }]

def cycL : List BackRecord :=
  [{ id := 1, pid := 1, name := "", path := "", redirect := none, meta := none }]

def dupL : List BackRecord :=
  [{ id := 1, pid := 0, name := "", path := "", redirect := none, meta := none },
   { id := 1, pid := 0, name := "", path := "", redirect := none, meta := none },
   { id := 2, pid := 1, name := "", path := "", redirect := none, meta := none }]

def zeroIdL : List BackRecord :=
  [{ id := 0, pid := 0, name := "", path := "", redirect := none, meta := none }]

def goodL : List BackRecord :=
  [{ id := 1, pid := 0, name := "root", path := "/r", redirect := none, meta := none },
   { id := 2, pid := 1, name := "c1", path := "a", redirect := none, meta := none },
   { id := 3, pid := 1, name := "c2", path := "b", redirect := none, meta := none },
   { id := 4, pid := 3, name := "g", path := "c", redirect := none, meta := none }]

/-- Nested induction principle for route forests: to prove a property of
every forest it suffices to handle `[]` and `r :: rs` given the property
for `r.children` and for `rs`. -/
theorem forestInd {motive : List RouteNode → Prop} (hnil : motive [])
    (hcons : ∀ r rs, motive r.children → motive rs → motive (r :: rs)) :
    ∀ rs, motive rs
  | [] => hnil
  | r :: rs => hcons r rs (forestInd hnil hcons r.children) (forestInd hnil hcons rs)
  termination_by rs => sizeOf rs
  decreasing_by all_goals (cases ‹RouteNode› <;> simp <;> omega)

/-- Every node of `flattenDescend` output is childless. -/
theorem flattenDescend_children_nil :
    ∀ rs : List RouteNode, ∀ pp pname x, x ∈ flattenDescend pp pname rs → x.children = [] := by
  refine forestInd (by simp [flattenDescend]) ?_
  intro r rs ihc ihr pp pname x hx
  simp only [flattenDescend, List.mem_cons, List.mem_append] at hx
  rcases hx with h | h | h
  · subst h; rfl
  · exact ihc _ _ _ h
  · exact ihr _ _ _ h

/-- The flattener really bounds the forest at two levels. -/
theorem twoLevel_flatten (rs : List RouteNode) : twoLevelB (flatMultiLevelRoutes rs) = true := by
  simp only [twoLevelB, flatMultiLevelRoutes, List.all_eq_true, List.mem_map]
  rintro x ⟨r, -, rfl⟩
  intro c hc
  simp only [flattenRoot, List.mem_flatMap, List.mem_cons] at hc
  rcases hc with ⟨c0, -, rfl | h⟩
  · rfl
  · simp [List.isEmpty_iff, flattenDescend_children_nil c0.children _ _ c h]

/-- C1 — counterexample. The claim says a failed backend fetch still yields
a returned forest in ROLE and ROUTE_MAPPING modes; in the code the fetch
failure is caught (leaving `backRouteList` undefined) but the branch then
evaluates `filter(undefined, routeFilter)`, whose thrown TypeError
propagates to the caller: the pass returns no forest. -/
theorem c1_counterexample :
    (buildRoutesAction .ROLE [] "/home" d0 dr0 (.error ()) (.ok []) (.ok [])
        0 permInitState).1 = .error () ∧
    (buildRoutesAction .ROUTE_MAPPING [] "/home" d0 dr0 (.error ()) (.ok [])
        (.ok []) 0 permInitState).1 = .error () :=
  ⟨rfl, rfl⟩

/-- C1 — amended: a resolution pass returns a forest if and only if the mode
is BACK (whose own fetches are guarded and default to empty) or the
fetch/build block succeeded; in ROLE and ROUTE_MAPPING modes a failed fetch
leaves the fetched list undefined and the pass propagates the fault. -/
theorem c1_amended (mode : PermissionMode) (roleList : List String) (homePath : String)
    (dm : String → Option RMeta) (dr : String → Option (List String))
    (raw : Except Unit (List BackRecord)) (permCodes : Except Unit (List String))
    (menuFetch : Except Unit (List RouteNode)) (now : Nat) (s : PermissionState) :
    exOk (buildRoutesAction mode roleList homePath dm dr raw permCodes menuFetch now s).1 =
      (mode == .BACK || (fetchBackRoutes dm dr raw).isSome) := by
  cases mode <;> cases h : fetchBackRoutes dm dr raw <;>
    simp [buildRoutesAction, buildRoutesCore, h, exOk]

/-- C7 — counterexample. The claim says ROLE mode filters the static route
declarations and in particular not the backend-fetched list; but the ROLE
output depends on the fetched list: two runs differing only in it return
different forests. -/
theorem c7_counterexample :
    (getOkD (buildRoutesCore .ROLE [] "/h" (some [rA]) (.ok []) (.ok [])
        0 permInitState).1).map RouteNode.name ≠
    (getOkD (buildRoutesCore .ROLE [] "/h" (some []) (.ok []) (.ok [])
        0 permInitState).1).map RouteNode.name := by
  simp +decide [buildRoutesCore, filter, filterForest, routeFilter, flatMultiLevelRoutes,
    flattenRoot, flattenDescend, patchHomeAffix, patcher, childPfx, strStarts, rA,
    ERROR_LOG_ROUTE, getOkD, permInitState]

/-- C7 — amended: in ROLE mode the engine applies the role filter
(descendant pass then top-level pass) to the backend-fetched route list —
this repository has no static route table — then flattens the result to at
most two levels, appends the reserved error-log route and patches the home
affix; the store state is untouched. -/
theorem c7_amended (roleList : List String) (homePath : String) (l : List RouteNode)
    (permCodes : Except Unit (List String)) (menuFetch : Except Unit (List RouteNode))
    (now : Nat) (s : PermissionState) :
    (buildRoutesCore .ROLE roleList homePath (some l) permCodes menuFetch now s).1 =
      .ok (patchHomeAffix homePath
        (flatMultiLevelRoutes
            ((filter (routeFilter roleList) l).filter (routeFilter roleList))
          ++ [ERROR_LOG_ROUTE])) ∧
    (buildRoutesCore .ROLE roleList homePath (some l) permCodes menuFetch now s).2 = s ∧
    twoLevelB (flatMultiLevelRoutes
        ((filter (routeFilter roleList) l).filter (routeFilter roleList))) = true :=
  ⟨rfl, rfl, twoLevel_flatten _⟩

/-- C10 — on an orphan record the parent lookup finds nothing, the unguarded
`parentMenu.children` access throws, and the enclosing catch of the
fetch/build block discards the whole backend forest (`backRouteList` stays
undefined): the orphan is not skipped individually and no partial forest
with the remaining records is produced; a subsequent ROLE-mode switch then
faults on the undefined list. -/
theorem c10_orphan_discards_forest :
    handleBackMenuTree d0 orphanL = .error () ∧
    fetchBackRoutes d0 dr0 (.ok orphanL) = none ∧
    (buildRoutesAction .ROLE [] "/h" d0 dr0 (.ok orphanL) (.ok []) (.ok [])
        0 permInitState).1 = .error () :=
  ⟨rfl, rfl, rfl⟩

/-- C9 — counterexample. The claim says `resetState` returns every stored
side-effect value to its initial value; but the front-menu forest is not
assigned by `resetState` and survives. -/
theorem c9_counterexample :
    (resetState s9).frontMenuList ≠ permInitState.frontMenuList := by
  simp [resetState, s9, permInitState]

/-- C9 — amended: `resetState` clears the permission-code list, the
back-menu forest, the last-build timestamp and the dynamic-routes-added
flag to their initial empty/zero/false values, for every prior state, but
leaves the front(derived)-menu forest unchanged. -/
theorem c9_amended (s : PermissionState) :
    (resetState s).isDynamicAddedRoute = false ∧
    (resetState s).permCodeList = [] ∧
    (resetState s).backMenuList = [] ∧
    (resetState s).lastBuildMenuTime = 0 ∧
    (resetState s).frontMenuList = s.frontMenuList :=
  ⟨rfl, rfl, rfl, rfl, rfl⟩

/-- Eta rule for route nodes (not definitional, the structure is recursive). -/
theorem routeEta (r : RouteNode) :
    RouteNode.mk r.name r.path r.redirect r.meta r.children = r := by
  cases r; rfl

/-- Unfolding of the walk on an empty sibling list. -/
theorem patcher_nil (hp pp : String) : patcher hp pp [] = ([], hp, false) := by
  simp [patcher]

/-- One-step unfolding of the walk on a non-empty sibling list. -/
theorem patcher_cons (hp pp : String) (r : RouteNode) (rest : List RouteNode) :
    patcher hp pp (r :: rest) =
      if curPath pp r = hp ∧ r.redirect = none then
        ({ r with meta := some (.obj (affixAssign r.meta)) } :: rest, hp, true)
      else
        let res := patcher (homeNext hp pp r) (childPfx (curPath pp r)) r.children
        if res.2.2 then
          ({ r with children := res.1 } :: rest, res.2.1, true)
        else
          let rres := patcher res.2.1 pp rest
          ({ r with children := res.1 } :: rres.1, rres.2.1, rres.2.2) := by
  cases r with
  | mk name path redirect meta children => cases redirect <;> simp [patcher]

/-- A walk that did not throw mutated nothing: the forest comes back as it
went in. -/
theorem patcher_not_thrown :
    ∀ (rs : List RouteNode) (hp pp : String),
      (patcher hp pp rs).2.2 = false → (patcher hp pp rs).1 = rs := by
  refine forestInd (fun hp pp _ => by simp [patcher_nil]) ?_
  intro r rest ihc ihr hp pp h
  rw [patcher_cons] at h ⊢
  by_cases hm : curPath pp r = hp ∧ r.redirect = none
  · rw [if_pos hm] at h; simp at h
  · rw [if_neg hm] at h ⊢
    cases hth : (patcher (homeNext hp pp r) (childPfx (curPath pp r)) r.children).2.2 with
    | true => simp only [hth, if_true] at h; simp at h
    | false =>
      simp only [hth, if_false] at h ⊢
      have h1 := ihc (homeNext hp pp r) (childPfx (curPath pp r)) hth
      have h2 := ihr _ pp h
      simp [h1, h2]
      exact routeEta r

/-- Erasing the affix mark absorbs the `Object.assign` of the walk. -/
theorem stripMeta_affixAssign (m : Option MetaVal) :
    stripMeta (some (.obj (affixAssign m))) = stripMeta m := by
  cases m with
  | none => rfl
  | some v => cases v <;> rfl

/-- The assigned meta always carries `affix = true`. -/
theorem affixAssign_affix (m : Option MetaVal) : (affixAssign m).affix = some true := by
  cases m with
  | none => rfl
  | some v => cases v <;> rfl

/-- Unfolding of the affix erasure on a non-empty forest. -/
theorem stripAffixF_cons (r : RouteNode) (rs : List RouteNode) :
    stripAffixF (r :: rs) =
      { r with meta := stripMeta r.meta, children := stripAffixF r.children } :: stripAffixF rs := by
  simp [stripAffixF]

/-- Unfolding of the node enumeration on a non-empty forest. -/
theorem allNodesF_cons (r : RouteNode) (rs : List RouteNode) :
    allNodesF (r :: rs) = r :: (allNodesF r.children ++ allNodesF rs) := by
  simp [allNodesF]

/-- The empty forest has no marked node. -/
theorem countAffixF_nil : countAffixF [] = 0 := by
  simp [countAffixF, allNodesF]

/-- Recursion of the marked-node count. -/
theorem countAffixF_cons (r : RouteNode) (rs : List RouteNode) :
    countAffixF (r :: rs) =
      (if hasAffix r then 1 else 0) + countAffixF r.children + countAffixF rs := by
  simp only [countAffixF, allNodesF_cons, List.filter_cons, List.filter_append]
  by_cases h : hasAffix r <;> simp [h] <;> omega

/-- The walk changes nothing but affix marks: erasing them gives back the
input forest, whatever home path and prefix the walk ran with. -/
theorem patcher_strip :
    ∀ (rs : List RouteNode) (hp pp : String),
      stripAffixF (patcher hp pp rs).1 = stripAffixF rs := by
  refine forestInd (fun hp pp => by simp [patcher_nil]) ?_
  intro r rest ihc ihr hp pp
  rw [patcher_cons]
  by_cases hm : curPath pp r = hp ∧ r.redirect = none
  · rw [if_pos hm]
    simp [stripAffixF_cons, stripMeta_affixAssign]
  · rw [if_neg hm]
    cases hth : (patcher (homeNext hp pp r) (childPfx (curPath pp r)) r.children).2.2 with
    | true =>
      simp only [hth, if_true]
      simp [stripAffixF_cons, ihc]
    | false =>
      simp only [hth, if_false]
      simp [stripAffixF_cons, ihc, ihr]

/-- The walk marks at most one node (the throw aborts everything after the
first full match). -/
theorem patcher_count :
    ∀ (rs : List RouteNode) (hp pp : String),
      countAffixF (patcher hp pp rs).1 ≤ countAffixF rs + 1 := by
  refine forestInd (fun hp pp => by simp [patcher_nil, countAffixF_nil]) ?_
  intro r rest ihc ihr hp pp
  rw [patcher_cons]
  by_cases hm : curPath pp r = hp ∧ r.redirect = none
  · rw [if_pos hm]
    simp only [countAffixF_cons]
    have hh : hasAffix { r with meta := some (.obj (affixAssign r.meta)) } = true := by
      simp [hasAffix, affixAssign_affix]
    simp only [hh]
    by_cases h : hasAffix r <;> simp [h] <;> omega
  · rw [if_neg hm]
    have hh : ∀ cs, hasAffix { r with children := cs } = hasAffix r := by
      intro cs; cases r; rfl
    cases hth : (patcher (homeNext hp pp r) (childPfx (curPath pp r)) r.children).2.2 with
    | true =>
      have h1 := ihc (homeNext hp pp r) (childPfx (curPath pp r))
      simp [hth, countAffixF_cons, hh]
      omega
    | false =>
      have h1 : (patcher (homeNext hp pp r) (childPfx (curPath pp r)) r.children).1 = r.children :=
        patcher_not_thrown r.children _ _ hth
      have h2 := ihr (patcher (homeNext hp pp r) (childPfx (curPath pp r)) r.children).2.1 pp
      simp [hth, countAffixF_cons, hh, h1]
      omega

/-- C6 — `patchHomeAffix` walks depth-first resolving paths against the
parent prefix, changes nothing but affix marks (erasing them recovers the
input), marks at most one node (the walk throws on the first full match),
and on the spec's worked example — home path `/dash`, root `/dash`
redirecting to `/dash/child` over child `child` — the redirect retargets the
search so the child ends marked `affix = true` while the root's affix stays
unset. -/
theorem c6_patchHomeAffix :
    (∀ hp rs, stripAffixF (patchHomeAffix hp rs) = stripAffixF rs) ∧
    (∀ hp rs, countAffixF (patchHomeAffix hp rs) ≤ countAffixF rs + 1) ∧
    patchHomeAffix "/dash" [dashRoot] =
      [{ dashRoot with children :=
          [{ dashChild with meta := some (.obj { affix := some true }) }] }] ∧
    hasAffix dashRoot = false ∧
    hasAffix { dashChild with meta := some (.obj { affix := some true }) } = true := by
  refine ⟨?_, ?_, ?_, ?_, ?_⟩
  · intro hp rs
    cases rs with
    | nil => rfl
    | cons r rest => exact patcher_strip (r :: rest) hp ""
  · intro hp rs
    cases rs with
    | nil => simp [patchHomeAffix]
    | cons r rest => exact patcher_count (r :: rest) hp ""
  · simp +decide [patchHomeAffix, patcher, dashRoot, dashChild, curPath, homeNext,
      childPfx, strStarts, affixAssign]
  · rfl
  · rfl

theorem filterForest_nil (p : RouteNode → Bool) : filterForest p [] = [] := by
  simp [filterForest]

theorem filterForest_cons (p : RouteNode → Bool) (r : RouteNode) (rs : List RouteNode) :
    filterForest p (r :: rs) =
      if p r then { r with children := filterForest p r.children } :: filterForest p rs
      else filterForest p rs := by
  simp [filterForest]

theorem filterForest_all (p : RouteNode → Bool)
    (hpc : ∀ r cs, p { r with children := cs } = p r) :
    ∀ rs : List RouteNode, (allNodesF (filterForest p rs)).all p = true := by
  refine forestInd (by simp [filterForest_nil, allNodesF]) ?_
  intro r rs ihc ihr
  rw [filterForest_cons]
  by_cases h : p r
  · simp [h, allNodesF_cons, List.all_cons, List.all_append, hpc, ihc, ihr]
  · simp [h, ihr]

theorem filterTop_all (p : RouteNode → Bool)
    (hpc : ∀ r cs, p { r with children := cs } = p r) (rs : List RouteNode) :
    (allNodesF ((filter p rs).filter p)).all p = true := by
  induction rs with
  | nil => simp [filter, allNodesF]
  | cons r rest ih =>
    simp only [filter, List.map_cons, List.filter_cons]
    by_cases h : p { r with children := filterForest p r.children }
    · simp only [h, if_true]
      simp [allNodesF_cons, List.all_cons, List.all_append, h, filterForest_all p hpc]
      simpa only [filter, List.all_eq_true] using ih
    · rw [if_neg h]
      exact ih

theorem filterForest_sub (p : RouteNode → Bool) :
    ∀ rs : List RouteNode, ∀ x ∈ allNodesF (filterForest p rs),
      ∃ y ∈ allNodesF rs, y.name = x.name ∧ y.path = x.path ∧ y.redirect = x.redirect ∧
        y.meta = x.meta ∧ x.children = filterForest p y.children := by
  refine forestInd (by simp [filterForest_nil, allNodesF]) ?_
  intro r rs ihc ihr x hx
  rw [filterForest_cons] at hx
  by_cases h : p r
  · rw [if_pos h] at hx
    rw [allNodesF_cons] at hx
    simp only [List.mem_cons, List.mem_append] at hx
    rcases hx with rfl | hx | hx
    · exact ⟨r, by simp [allNodesF_cons], rfl, rfl, rfl, rfl, rfl⟩
    · obtain ⟨y, hy, hfields⟩ := ihc x hx
      exact ⟨y, by simp [allNodesF_cons, hy], hfields⟩
    · obtain ⟨y, hy, hfields⟩ := ihr x hx
      exact ⟨y, by simp [allNodesF_cons, hy], hfields⟩
  · rw [if_neg h] at hx
    obtain ⟨y, hy, hfields⟩ := ihr x hx
    exact ⟨y, by simp [allNodesF_cons, hy], hfields⟩

theorem filterTop_sub (p : RouteNode → Bool) (rs : List RouteNode) :
    ∀ x ∈ allNodesF ((filter p rs).filter p),
      ∃ y ∈ allNodesF rs, y.name = x.name ∧ y.path = x.path ∧ y.redirect = x.redirect ∧
        y.meta = x.meta ∧ x.children = filterForest p y.children := by
  induction rs with
  | nil => simp [filter, allNodesF]
  | cons r rest ih =>
    intro x hx
    simp only [filter, List.map_cons, List.filter_cons] at hx
    by_cases h : p { r with children := filterForest p r.children }
    · rw [if_pos h] at hx
      rw [allNodesF_cons] at hx
      simp only [List.mem_cons, List.mem_append] at hx
      rcases hx with rfl | hx | hx
      · exact ⟨r, by simp [allNodesF_cons], rfl, rfl, rfl, rfl, rfl⟩
      · obtain ⟨y, hy, hfields⟩ := filterForest_sub p r.children x (by simpa using hx)
        exact ⟨y, by simp [allNodesF_cons, hy], hfields⟩
      · obtain ⟨y, hy, hfields⟩ := ih x (by simpa [filter] using hx)
        exact ⟨y, by simp [allNodesF_cons, hy], hfields⟩
    · rw [if_neg h] at hx
      obtain ⟨y, hy, hfields⟩ := ih x (by simpa [filter] using hx)
      exact ⟨y, by simp [allNodesF_cons, hy], hfields⟩

theorem routeFilter_iff (R : List String) (r : RouteNode) (h : nodeWF r = true) :
    (routeFilter R r = true ↔
      (metaRoles r = none ∨ ∃ l, metaRoles r = some (.parsed l) ∧ ∃ role ∈ R, role ∈ l)) := by
  cases hm : r.meta with
  | none => simp [routeFilter, metaRoles, hm]
  | some v =>
    cases v with
    | raw s => simp [nodeWF, hm] at h
    | obj m =>
      cases hr : m.roles with
      | none => simp [routeFilter, metaRoles, hm, hr]
      | some rf =>
        cases rf with
        | raw s => simp [nodeWF, hm, hr] at h
        | parsed l =>
          simp [routeFilter, metaRoles, hm, hr, List.any_eq_true]

theorem mem_allNodesF_self : ∀ (F : List RouteNode) (x : RouteNode), x ∈ F → x ∈ allNodesF F := by
  intro F
  induction F with
  | nil => simp
  | cons r rs ih =>
    intro x hx
    rw [allNodesF_cons]
    simp only [List.mem_cons] at hx
    simp only [List.mem_cons, List.mem_append]
    rcases hx with rfl | hx
    · exact Or.inl rfl
    · exact Or.inr (Or.inr (ih x hx))

theorem mem_allNodesF_trans :
    ∀ (F : List RouteNode) (c x : RouteNode), c ∈ allNodesF F → x ∈ allNodesF c.children →
      x ∈ allNodesF F := by
  refine forestInd (by simp [allNodesF]) ?_
  intro r rs ihc ihr c x hc hx
  rw [allNodesF_cons] at hc ⊢
  simp only [List.mem_cons, List.mem_append] at hc ⊢
  rcases hc with rfl | hc | hc
  · exact Or.inr (Or.inl hx)
  · exact Or.inr (Or.inl (ihc c x hc hx))
  · exact Or.inr (Or.inr (ihr c x hc hx))

theorem allNodesF_childless : ∀ (L : List RouteNode), (∀ c ∈ L, c.children = []) →
    allNodesF L = L := by
  intro L
  induction L with
  | nil => simp [allNodesF]
  | cons a l ih =>
    intro h
    rw [allNodesF_cons, h a (by simp)]
    simp [allNodesF, ih (fun c hc => h c (by simp [hc]))]

theorem flattenDescend_mem :
    ∀ (ns : List RouteNode) (pp pname : String) (x : RouteNode),
      x ∈ flattenDescend pp pname ns →
      ∃ n ∈ allNodesF ns, ∃ np pn,
        x = { n with path := np, children := [], meta := metaWithParent n.meta pn } := by
  refine forestInd (by simp [flattenDescend]) ?_
  intro r rs ihc ihr pp pname x hx
  simp only [flattenDescend, List.mem_cons, List.mem_append] at hx
  rcases hx with rfl | hx | hx
  · refine ⟨r, ?_, _, _, rfl⟩
    rw [allNodesF_cons]
    exact List.mem_cons_self _ _
  · obtain ⟨n, hn, np, pn, rfl⟩ := ihc _ _ _ hx
    refine ⟨n, ?_, np, pn, rfl⟩
    rw [allNodesF_cons]
    simp only [List.mem_cons, List.mem_append]
    exact Or.inr (Or.inl hn)
  · obtain ⟨n, hn, np, pn, rfl⟩ := ihr _ _ _ hx
    refine ⟨n, ?_, np, pn, rfl⟩
    rw [allNodesF_cons]
    simp only [List.mem_cons, List.mem_append]
    exact Or.inr (Or.inr hn)

theorem rif_children_update (r : RouteNode) (cs : List RouteNode) :
    routeRemoveIgnoreFilter { r with children := cs } = routeRemoveIgnoreFilter r := by
  cases r; rfl

theorem rif_metaWithParent (n : RouteNode) (np : String) (pn : String) :
    routeRemoveIgnoreFilter
      { n with path := np, children := ([] : List RouteNode), meta := metaWithParent n.meta pn } =
      routeRemoveIgnoreFilter n := by
  cases n with
  | mk a b c m ch =>
    cases m with
    | none => rfl
    | some v => cases v <;> rfl

theorem flatten_nodes_rif :
    ∀ (F : List RouteNode) (x : RouteNode), x ∈ allNodesF (flatMultiLevelRoutes F) →
      ∃ y ∈ allNodesF F, routeRemoveIgnoreFilter x = routeRemoveIgnoreFilter y := by
  intro F
  induction F with
  | nil => simp [flatMultiLevelRoutes, allNodesF]
  | cons r rs ih =>
    intro x hx
    simp only [flatMultiLevelRoutes, List.map_cons] at hx
    rw [allNodesF_cons] at hx
    have hchildless : ∀ c ∈ (flattenRoot r).children, c.children = [] := by
      intro c hc
      simp only [flattenRoot, List.mem_flatMap, List.mem_cons] at hc
      obtain ⟨c0, -, rfl | h⟩ := hc
      · rfl
      · exact flattenDescend_children_nil c0.children _ _ c h
    rw [allNodesF_childless _ hchildless] at hx
    simp only [List.mem_cons, List.mem_append] at hx
    rcases hx with rfl | hx | hx
    · refine ⟨r, by rw [allNodesF_cons]; exact List.mem_cons_self _ _, ?_⟩
      simp only [flattenRoot]
      exact rif_children_update r _
    · simp only [flattenRoot, List.mem_flatMap, List.mem_cons] at hx
      obtain ⟨c0, hc0, rfl | h⟩ := hx
      · refine ⟨c0, ?_, rif_children_update c0 []⟩
        rw [allNodesF_cons]
        simp only [List.mem_cons, List.mem_append]
        exact Or.inr (Or.inl (mem_allNodesF_self _ _ hc0))
      · obtain ⟨n, hn, np, pn, rfl⟩ := flattenDescend_mem c0.children _ _ x h
        refine ⟨n, ?_, rif_metaWithParent n np pn⟩
        rw [allNodesF_cons]
        simp only [List.mem_cons, List.mem_append]
        exact Or.inr (Or.inl (mem_allNodesF_trans r.children c0 n
          (mem_allNodesF_self _ _ hc0) hn))
    · obtain ⟨y, hy, he⟩ := ih x (by simpa [flatMultiLevelRoutes] using hx)
      refine ⟨y, ?_, he⟩
      rw [allNodesF_cons]
      simp only [List.mem_cons, List.mem_append]
      exact Or.inr (Or.inr hy)

theorem flatten_all_rif (F : List RouteNode)
    (h : (allNodesF F).all routeRemoveIgnoreFilter = true) :
    (allNodesF (flatMultiLevelRoutes F)).all routeRemoveIgnoreFilter = true := by
  rw [List.all_eq_true] at h ⊢
  intro x hx
  obtain ⟨y, hy, he⟩ := flatten_nodes_rif F x hx
  rw [he]
  exact h y hy

theorem allNodesF_append : ∀ A B : List RouteNode,
    allNodesF (A ++ B) = allNodesF A ++ allNodesF B := by
  intro A B
  induction A with
  | nil => simp [allNodesF]
  | cons r rs ih => simp [allNodesF_cons, ih, List.cons_append, List.append_assoc]

theorem rif_stripMeta (r : RouteNode) (cs : List RouteNode) :
    routeRemoveIgnoreFilter { r with meta := stripMeta r.meta, children := cs } =
      routeRemoveIgnoreFilter r := by
  cases r with
  | mk a b c m ch =>
    cases m with
    | none => rfl
    | some v => cases v <;> rfl

theorem allRif_strip : ∀ F : List RouteNode,
    (allNodesF (stripAffixF F)).all routeRemoveIgnoreFilter =
      (allNodesF F).all routeRemoveIgnoreFilter := by
  refine forestInd (by simp [stripAffixF]) ?_
  intro r rs ihc ihr
  rw [stripAffixF_cons]
  simp [allNodesF_cons, List.all_cons, List.all_append, ihc, ihr, rif_stripMeta]

theorem patch_all_rif (hp : String) (F : List RouteNode) :
    (allNodesF (patchHomeAffix hp F)).all routeRemoveIgnoreFilter =
      (allNodesF F).all routeRemoveIgnoreFilter := by
  cases F with
  | nil => rfl
  | cons r rest =>
    have h1 := allRif_strip (patcher hp "" (r :: rest)).1
    rw [patcher_strip (r :: rest) hp "", allRif_strip] at h1
    simpa [patchHomeAffix] using h1.symm

theorem rf_children_update (R : List String) (r : RouteNode) (cs : List RouteNode) :
    routeFilter R { r with children := cs } = routeFilter R r := by
  cases r; rfl

/-- C3 — a node passes the role predicate iff its `meta.roles` is absent or
the role set shares at least one element with it (stated for well-typed
nodes, whose metas are decoded as in the spec's data model); every node
surviving the descendant filter plus the top-level filter passes the
predicate (so a node with a roles constraint disjoint from R is absent),
and every surviving node is an input node carrying exactly its
predicate-filtered children — nothing from a removed subtree reattaches. -/
theorem c3_role_predicate (F : List RouteNode) (R : List String) (r : RouteNode)
    (hwf : nodeWF r = true) :
    (routeFilter R r = true ↔
      (metaRoles r = none ∨
        ∃ l, metaRoles r = some (.parsed l) ∧ ∃ role ∈ R, role ∈ l)) ∧
    (allNodesF ((filter (routeFilter R) F).filter (routeFilter R))).all (routeFilter R)
      = true ∧
    (∀ x ∈ allNodesF ((filter (routeFilter R) F).filter (routeFilter R)),
      ∃ y ∈ allNodesF F, y.name = x.name ∧ y.path = x.path ∧ y.redirect = x.redirect ∧
        y.meta = x.meta ∧ x.children = filterForest (routeFilter R) y.children) :=
  ⟨routeFilter_iff R r hwf, filterTop_all _ (rf_children_update R) F, filterTop_sub _ F⟩

/-- Witness for C3 at the concrete forest `[rA]`, role set `["x"]` and
node `rA`. -/
theorem c3_role_predicate_witness :
    nodeWF rA = true ∧
    ((routeFilter ["x"] rA = true ↔
      (metaRoles rA = none ∨
        ∃ l, metaRoles rA = some (.parsed l) ∧ ∃ role ∈ ["x"], role ∈ l)) ∧
    (allNodesF ((filter (routeFilter ["x"]) [rA]).filter (routeFilter ["x"]))).all
        (routeFilter ["x"]) = true ∧
    (∀ x ∈ allNodesF ((filter (routeFilter ["x"]) [rA]).filter (routeFilter ["x"])),
      ∃ y ∈ allNodesF [rA], y.name = x.name ∧ y.path = x.path ∧ y.redirect = x.redirect ∧
        y.meta = x.meta ∧ x.children = filterForest (routeFilter ["x"]) y.children)) :=
  ⟨rfl, c3_role_predicate [rA] ["x"] rA rfl⟩

/-- C4 — in ROUTE_MAPPING mode the stored front-menu forest is computed
(and sorted) from the role-filtered routes before any ignoreRoute pruning,
every node of the returned route forest passes `routeRemoveIgnoreFilter`
(no `ignoreRoute = true` node survives to the router), and on a concrete
input an `ignoreRoute = true` node does appear in the stored front menu. -/
theorem c4_menu_before_ignore (R : List String) (hp : String) (l : List RouteNode)
    (pc : Except Unit (List String)) (mf : Except Unit (List RouteNode))
    (now : Nat) (s : PermissionState) :
    ((buildRoutesCore .ROUTE_MAPPING R hp (some l) pc mf now s).2.frontMenuList =
      jsSort (transformRouteToMenu true
        ((filter (routeFilter R) l).filter (routeFilter R)))) ∧
    ((allNodesF (getOkD (buildRoutesCore .ROUTE_MAPPING R hp (some l) pc mf now s).1)).all
        routeRemoveIgnoreFilter = true) ∧
    ((allMenusF (buildRoutesCore .ROUTE_MAPPING [] "/h" (some [ignoredNode]) (.ok [])
        (.ok []) 0 permInitState).2.frontMenuList).any menuIgnored = true) := by
  refine ⟨rfl, ?_, ?_⟩
  · show (allNodesF (patchHomeAffix hp
      (flatMultiLevelRoutes ((filter routeRemoveIgnoreFilter
          ((filter (routeFilter R) l).filter (routeFilter R))).filter routeRemoveIgnoreFilter)
        ++ [ERROR_LOG_ROUTE]))).all routeRemoveIgnoreFilter = true
    rw [patch_all_rif, allNodesF_append, List.all_append]
    have h1 := filterTop_all routeRemoveIgnoreFilter rif_children_update
      ((filter (routeFilter R) l).filter (routeFilter R))
    have h2 := flatten_all_rif _ h1
    rw [h2]
    simp [allNodesF_cons, allNodesF, ERROR_LOG_ROUTE, routeRemoveIgnoreFilter]
  · simp +decide [buildRoutesCore, filter, filterForest, routeFilter, transformRouteToMenu,
      toMenuGo, jsSort, insSorted, menuKey, resolvePath, strStarts, ignoredNode,
      permInitState, allMenusF, menuIgnored]

theorem insSorted_perm (a : MenuNode) (l : List MenuNode) : (insSorted a l).Perm (a :: l) := by
  induction l with
  | nil => simp [insSorted]
  | cons b l ih =>
    by_cases h : menuKey a ≤ menuKey b
    · simp [insSorted, h]
    · simp only [insSorted, if_neg h]
      exact (ih.cons b).trans (List.Perm.swap a b l)

theorem jsSort_perm (l : List MenuNode) : (jsSort l).Perm l := by
  induction l with
  | nil => simp [jsSort]
  | cons a l ih =>
    show (insSorted a (jsSort l)).Perm (a :: l)
    exact (insSorted_perm a (jsSort l)).trans (ih.cons a)

theorem insSorted_sorted (a : MenuNode) (l : List MenuNode)
    (h : l.Pairwise (fun x y => menuKey x ≤ menuKey y)) :
    (insSorted a l).Pairwise (fun x y => menuKey x ≤ menuKey y) := by
  induction l with
  | nil => simp [insSorted]
  | cons b l ih =>
    rw [List.pairwise_cons] at h
    obtain ⟨hb, hl⟩ := h
    by_cases hab : menuKey a ≤ menuKey b
    · simp only [insSorted, if_pos hab]
      rw [List.pairwise_cons]
      refine ⟨?_, by rw [List.pairwise_cons]; exact ⟨hb, hl⟩⟩
      intro x hx
      rcases List.mem_cons.mp hx with rfl | hx
      · exact hab
      · exact le_trans hab (hb x hx)
    · simp only [insSorted, if_neg hab]
      rw [List.pairwise_cons]
      refine ⟨?_, ih hl⟩
      intro x hx
      have hx' := (insSorted_perm a l).mem_iff.mp hx
      rcases List.mem_cons.mp hx' with rfl | hx''
      · exact le_of_not_le hab
      · exact hb x hx''

theorem jsSort_sorted (l : List MenuNode) :
    (jsSort l).Pairwise (fun x y => menuKey x ≤ menuKey y) := by
  induction l with
  | nil => simp [jsSort]
  | cons a l ih => exact insSorted_sorted a (jsSort l) ih

theorem insSorted_filter (a : MenuNode) (l : List MenuNode) (k : Int) :
    (insSorted a l).filter (fun m => menuKey m == k) =
      if menuKey a == k then a :: l.filter (fun m => menuKey m == k)
      else l.filter (fun m => menuKey m == k) := by
  induction l with
  | nil => by_cases hak : menuKey a == k <;> simp [insSorted, List.filter, hak]
  | cons b l ih =>
    by_cases hab : menuKey a ≤ menuKey b
    · simp [insSorted, if_pos hab, List.filter_cons]
    · simp only [insSorted, if_neg hab, List.filter_cons, ih]
      by_cases hbk : menuKey b == k
      · by_cases hak : menuKey a == k
        · exfalso
          have h1 : menuKey a = k := by simpa using hak
          have h2 : menuKey b = k := by simpa using hbk
          omega
        · simp [hak, hbk]
      · by_cases hak : menuKey a == k <;> simp [hak, hbk]

theorem jsSort_filter (l : List MenuNode) (k : Int) :
    (jsSort l).filter (fun m => menuKey m == k) = l.filter (fun m => menuKey m == k) := by
  induction l with
  | nil => rfl
  | cons a l ih =>
    show (insSorted a (jsSort l)).filter _ = _
    rw [insSorted_filter, List.filter_cons]
    by_cases hak : menuKey a == k <;> simp [hak, ih]

/-- C5 — counterexample. The claim says sibling menu nodes are sorted by
`orderNo` at every nesting level; the code sorts only the top-level array,
so a root whose children carry `orderNo` 2 then 1 yields a stored menu that
is not deeply sorted. -/
theorem c5_counterexample :
    menuSortedDeepB (buildRoutesCore .ROUTE_MAPPING [] "/h" (some [unsortedRoot]) (.ok [])
      (.ok []) 0 permInitState).2.frontMenuList = false := by
  simp +decide [buildRoutesCore, filter, filterForest, routeFilter, transformRouteToMenu,
    toMenuGo, jsSort, insSorted, menuKey, resolvePath, strStarts, unsortedRoot,
    permInitState, menuSortedDeepB, sortedByKeyB, menuDeepAll]

/-- C5 — amended: the stored front menu is the stable ascending sort by
`orderNo` (missing treated as 0) of the derived menu at the top level only:
it is sorted there, stable (elements of every equal-key class keep their
derivation order), and a permutation of the derived menu whose nodes
(including their nested, unsorted children) are untouched. -/
theorem c5_amended (R : List String) (hp : String) (l : List RouteNode)
    (pc : Except Unit (List String)) (mf : Except Unit (List RouteNode))
    (now : Nat) (s : PermissionState) :
    ((buildRoutesCore .ROUTE_MAPPING R hp (some l) pc mf now s).2.frontMenuList =
      jsSort (transformRouteToMenu true
        ((filter (routeFilter R) l).filter (routeFilter R)))) ∧
    ((buildRoutesCore .ROUTE_MAPPING R hp (some l) pc mf now s).2.frontMenuList).Pairwise
      (fun a b => menuKey a ≤ menuKey b) ∧
    (∀ k : Int,
      ((buildRoutesCore .ROUTE_MAPPING R hp (some l) pc mf now s).2.frontMenuList).filter
          (fun m => menuKey m == k) =
        (transformRouteToMenu true
            ((filter (routeFilter R) l).filter (routeFilter R))).filter
          (fun m => menuKey m == k)) ∧
    ((buildRoutesCore .ROUTE_MAPPING R hp (some l) pc mf now s).2.frontMenuList).Perm
      (transformRouteToMenu true ((filter (routeFilter R) l).filter (routeFilter R))) :=
  ⟨rfl, jsSort_sorted _, fun k => jsSort_filter _ k, jsSort_perm _⟩

theorem expChild_getD (l : List BackRecord) (k j : Nat) :
    (expChild l k j).getD [] = expChildL l k j := by
  rw [expChild]
  by_cases h : expChildL l k j = [] <;> simp [h]

theorem initBT_inv (dm : String → Option RMeta) (l : List BackRecord) :
    Inv dm l 0 (initBT l) := by
  refine ⟨rfl, fun j => by simp [initBT, expChild, expChildL], fun i => ?_⟩
  simp [initBT, expMeta, metaAt]

theorem hbmtStep_inv (dm : String → Option RMeta) (l : List BackRecord) (k : Nat)
    (st : BTState) (hinv : Inv dm l k st)
    (hok : pidOf l k = 0 ∨ (pidx l k).isSome = true) :
    ∃ st', hbmtStep dm l st k = .ok st' ∧ Inv dm l (k + 1) st' := by
  obtain ⟨hroots, hchild, hmetas⟩ := hinv
  have hmetas' : ∀ i, (if i = k then metaStep dm (st.metas i) else st.metas i)
      = expMeta dm l (k + 1) i := by
    intro i
    by_cases hik : i = k
    · subst hik
      rw [if_pos rfl, hmetas i, expMeta, expMeta]
      rw [if_neg (by omega), if_pos (by omega)]
    · rw [if_neg hik, hmetas i, expMeta, expMeta]
      by_cases hlt : i < k
      · rw [if_pos hlt, if_pos (by omega)]
      · rw [if_neg hlt, if_neg (by omega)]
  by_cases h0 : pidOf l k = 0
  · refine ⟨_, by rw [hbmtStep, if_pos h0], ?_, ?_, ?_⟩
    · show st.roots ++ [k] = expRoots l (k + 1)
      rw [hroots, expRoots, expRoots, List.range_succ, List.filter_append]
      simp [h0]
    · intro j
      show st.childIdx j = expChild l (k + 1) j
      rw [hchild j, expChild, expChild]
      have : expChildL l (k + 1) j = expChildL l k j := by
        rw [expChildL, expChildL, List.range_succ, List.filter_append]
        simp [h0]
      rw [this]
    · exact hmetas'
  · have hmatch : ∃ j0, pidx l k = some j0 := by
      rcases hok with h | h
      · exact absurd h h0
      · rwa [Option.isSome_iff_exists] at h
    obtain ⟨j0, hj0⟩ := hmatch
    refine ⟨{ metas := fun i' => if i' = k then metaStep dm (st.metas i') else st.metas i',
              childIdx := fun j' => if j' = j0 then
                  some ((st.childIdx j').getD [] ++ [k]) else st.childIdx j',
              roots := st.roots }, ?_, ?_, ?_, ?_⟩
    · rw [hbmtStep, if_neg h0, hj0]
    · dsimp only
      rw [hroots, expRoots, expRoots, List.range_succ, List.filter_append]
      simp [h0]
    · intro j
      dsimp only
      by_cases hj : j = j0
      · subst hj
        rw [if_pos rfl, hchild j, expChild_getD]
        have hstep : expChildL l (k + 1) j = expChildL l k j ++ [k] := by
          rw [expChildL, expChildL, List.range_succ, List.filter_append]
          simp [h0, hj0]
        rw [expChild, hstep]
        simp
      · rw [if_neg hj, hchild j, expChild, expChild]
        have hstep : expChildL l (k + 1) j = expChildL l k j := by
          rw [expChildL, expChildL, List.range_succ, List.filter_append]
          simp [h0, hj0, Ne.symm hj]
        rw [hstep]
    · intro i
      dsimp only
      exact hmetas' i

theorem hbmtGo_inv (dm : String → Option RMeta) (l : List BackRecord) :
    ∀ (m k : Nat) (st : BTState), Inv dm l k st →
      (∀ i, k ≤ i → i < k + m → (pidOf l i = 0 ∨ (pidx l i).isSome = true)) →
      ∃ st', hbmtGo dm l (List.range' k m) st = .ok st' ∧ Inv dm l (k + m) st' := by
  intro m
  induction m with
  | zero => exact fun k st hinv _ => ⟨st, rfl, by simpa using hinv⟩
  | succ m ih =>
    intro k st hinv hok
    obtain ⟨st1, hstep, hinv1⟩ := hbmtStep_inv dm l k st hinv (hok k (by omega) (by omega))
    obtain ⟨st', hgo, hinv'⟩ := ih (k + 1) st1 hinv1 (fun i h1 h2 => hok i (by omega) (by omega))
    refine ⟨st', ?_, by simpa [Nat.add_assoc, Nat.add_comm, Nat.add_left_comm] using hinv'⟩
    simp only [List.range'_succ, hbmtGo, hstep]
    exact hgo

theorem handleBackMenuTree_inv (dm : String → Option RMeta) (l : List BackRecord)
    (hok : ∀ i, i < l.length → (pidOf l i = 0 ∨ (pidx l i).isSome = true)) :
    ∃ st, handleBackMenuTree dm l = .ok st ∧ Inv dm l l.length st := by
  obtain ⟨st, hgo, hinv⟩ := hbmtGo_inv dm l l.length 0 (initBT l) (initBT_inv dm l)
    (fun i h1 h2 => hok i (by omega))
  refine ⟨st, ?_, by simpa using hinv⟩
  rw [handleBackMenuTree, List.range_eq_range']
  simpa using hgo

theorem findIdxA_some (p : BackRecord → Bool) :
    ∀ (l : List BackRecord) (j : Nat), findIdxA p l = some j →
      j < l.length ∧ p (l.getD j dfltRec) = true := by
  intro l
  induction l with
  | nil => simp [findIdxA]
  | cons r rs ih =>
    intro j h
    by_cases hp : p r
    · rw [findIdxA, if_pos hp] at h
      obtain rfl : 0 = j := Option.some.inj h
      exact ⟨by simp, by simpa [List.getD] using hp⟩
    · rw [findIdxA, if_neg hp] at h
      rw [Option.map_eq_some'] at h
      obtain ⟨j', hj', rfl⟩ := h
      obtain ⟨h1, h2⟩ := ih j' hj'
      exact ⟨by simp; omega, by simpa [List.getD] using h2⟩

theorem findIdxA_isSome (p : BackRecord → Bool) :
    ∀ (l : List BackRecord) (i : Nat), i < l.length → p (l.getD i dfltRec) = true →
      (findIdxA p l).isSome = true := by
  intro l
  induction l with
  | nil => simp
  | cons r rs ih =>
    intro i hi hp
    by_cases h : p r
    · simp [findIdxA, h]
    · cases i with
      | zero => exact absurd (by simpa [List.getD] using hp) h
      | succ i' =>
        have := ih i' (by simpa using Nat.lt_of_succ_lt_succ hi) (by simpa [List.getD] using hp)
        simp only [findIdxA, if_neg h]
        simpa using this

theorem hbmtStep_ok (dm : String → Option RMeta) (l : List BackRecord) (st : BTState)
    (i : Nat) (hok : pidOf l i = 0 ∨ (pidx l i).isSome = true) :
    ∃ st', hbmtStep dm l st i = .ok st' := by
  by_cases h0 : pidOf l i = 0
  · exact ⟨_, by rw [hbmtStep, if_pos h0]⟩
  · have hex : ∃ j, pidx l i = some j := by
      rcases hok with h | h
      · exact absurd h h0
      · rwa [Option.isSome_iff_exists] at h
    obtain ⟨j, hj⟩ := hex
    exact ⟨_, by rw [hbmtStep, if_neg h0, hj]⟩

theorem hbmtStep_err (dm : String → Option RMeta) (l : List BackRecord) (st : BTState)
    (i : Nat) (h0 : pidOf l i ≠ 0) (hn : pidx l i = none) :
    hbmtStep dm l st i = .error () := by
  rw [hbmtStep, if_neg h0, hn]

theorem hbmtGo_ok_iff (dm : String → Option RMeta) (l : List BackRecord) :
    ∀ (is : List Nat) (st : BTState),
      exOk (hbmtGo dm l is st) = true ↔
        ∀ i ∈ is, (pidOf l i = 0 ∨ (pidx l i).isSome = true) := by
  intro is
  induction is with
  | nil => intro st; simp [hbmtGo, exOk]
  | cons i is ih =>
    intro st
    constructor
    · intro h
      by_cases hok : pidOf l i = 0 ∨ (pidx l i).isSome = true
      · obtain ⟨st1, hst1⟩ := hbmtStep_ok dm l st i hok
        intro i' hi'
        rcases List.mem_cons.mp hi' with rfl | hmem
        · exact hok
        · exact (ih st1).mp (by simpa only [hbmtGo, hst1] using h) i' hmem
      · exfalso
        have h0 : pidOf l i ≠ 0 := fun hc => hok (Or.inl hc)
        have hn : pidx l i = none := by
          cases hpx : pidx l i with
          | none => rfl
          | some j => exact absurd (Or.inr (by simp [hpx])) hok
        rw [hbmtGo, hbmtStep_err dm l st i h0 hn] at h
        simp [exOk] at h
    · intro hall
      obtain ⟨st1, hst1⟩ := hbmtStep_ok dm l st i (hall i (by simp))
      simp only [hbmtGo, hst1]
      exact (ih st1).mpr (fun i' hi' => hall i' (by simp [hi']))

theorem hbmt_isOk_iff (dm : String → Option RMeta) (l : List BackRecord) :
    exOk (handleBackMenuTree dm l) = true ↔
      ∀ i, i < l.length → (pidOf l i = 0 ∨ (pidx l i).isSome = true) := by
  rw [handleBackMenuTree, hbmtGo_ok_iff]
  simp [List.mem_range]

theorem hbmt_isOk_decode_free (dm dm' : String → Option RMeta) (l : List BackRecord) :
    exOk (handleBackMenuTree dm l) = exOk (handleBackMenuTree dm' l) := by
  by_cases h : ∀ i, i < l.length → (pidOf l i = 0 ∨ (pidx l i).isSome = true)
  · rw [(hbmt_isOk_iff dm l).mpr h, (hbmt_isOk_iff dm' l).mpr h]
  · have e1 : exOk (handleBackMenuTree dm l) ≠ true := fun hc => h ((hbmt_isOk_iff dm l).mp hc)
    have e2 : exOk (handleBackMenuTree dm' l) ≠ true := fun hc => h ((hbmt_isOk_iff dm' l).mp hc)
    rw [Bool.eq_false_iff.mpr e1, Bool.eq_false_iff.mpr e2]

theorem hbmt_metas (dm : String → Option RMeta) (l : List BackRecord) (st : BTState)
    (hok : handleBackMenuTree dm l = .ok st) :
    ∀ i, st.metas i = expMeta dm l l.length i := by
  have hcond : ∀ i, i < l.length → (pidOf l i = 0 ∨ (pidx l i).isSome = true) := by
    apply (hbmt_isOk_iff dm l).mp
    rw [hok]; rfl
  obtain ⟨st'', hok2, hinv⟩ := handleBackMenuTree_inv dm l hcond
  rw [hok] at hok2
  obtain rfl : st = st'' := by
    exact (Except.ok.inj hok2)
  exact hinv.2.2

theorem metaAt_oob (l : List BackRecord) (i : Nat) (h : l.length ≤ i) : metaAt l i = none := by
  rw [metaAt, List.getD_eq_default _ _ h]
  rfl

/-- C8 — amended: a per-record meta (or roles) decode failure is non-fatal —
whether the build pass throws does not depend on the decode at all — and the
failing record's `meta` (resp. `meta.roles`) RETAINS the malformed raw
value; it is not cleared to undefined/empty. -/
theorem c8_amended (dm dm' : String → Option RMeta) (dr : String → Option (List String))
    (l : List BackRecord) (st : BTState) (i : Nat) (s : String)
    (hok : handleBackMenuTree dm l = .ok st)
    (hraw : metaAt l i = some (.raw s)) (hne : s ≠ "") (hfail : dm s = none)
    (hrfail : dr s = none) :
    exOk (handleBackMenuTree dm' l) = true ∧
    st.metas i = some (.raw s) ∧
    prrRoles dr (some (.raw s)) = some (.raw s) := by
  refine ⟨?_, ?_, ?_⟩
  · rw [← hbmt_isOk_decode_free dm dm' l, hok]; rfl
  · have hi : i < l.length := by
      by_contra hcon
      rw [metaAt_oob l i (by omega)] at hraw
      exact Option.noConfusion hraw
    rw [hbmt_metas dm l st hok i, expMeta, if_pos hi, hraw]
    simp [metaStep, hne, hfail]
  · simp [prrRoles, hne, hrfail]

/-- C8 — counterexample. The claim says a record whose meta fails to decode
ends with `meta` defaulting to undefined/empty; in the code the catch around
`JSON.parse` leaves the raw malformed string in place: after the pass the
record's meta is still the raw value, not `none`. -/
theorem c8_counterexample :
    exOk (handleBackMenuTree d0 badL) = true ∧
    (getOkBT (handleBackMenuTree d0 badL)).metas 0 = some (.raw "BAD") ∧
    (getOkBT (handleBackMenuTree d0 badL)).metas 0 ≠ none := by
  refine ⟨rfl, rfl, by decide⟩

/-- Witness for C8 at the concrete one-record list `badL` with the
always-failing decodes. -/
theorem c8_amended_witness :
    exOk (handleBackMenuTree d0 badL) = true ∧
    (getOkBT (handleBackMenuTree d0 badL)).metas 0 = some (.raw "BAD") ∧
    prrRoles dr0 (some (.raw "BAD")) = some (.raw "BAD") :=
  c8_amended d0 d0 dr0 badL (getOkBT (handleBackMenuTree d0 badL)) 0 "BAD" rfl rfl
    (by decide) rfl rfl

theorem pidx_some (l : List BackRecord) (i j : Nat) (h : pidx l i = some j) :
    j < l.length ∧ idOf l j = pidOf l i := by
  unfold pidx at h
  have := findIdxA_some _ l j h
  exact ⟨this.1, by simpa [idOf] using this.2⟩

theorem pidx_isSome (l : List BackRecord) (i j : Nat) (hj : j < l.length)
    (h : idOf l j = pidOf l i) : (pidx l i).isSome = true := by
  unfold pidx
  apply findIdxA_isSome _ l j hj
  simpa [idOf] using h

theorem childList_eq (dm : String → Option RMeta) (l : List BackRecord) (st : BTState)
    (hinv : Inv dm l l.length st)
    (HU : ∀ i j, i < l.length → j < l.length → idOf l i = idOf l j → i = j)
    (HZ : ∀ i, i < l.length → idOf l i ≠ 0)
    (i : Nat) (hi : i < l.length) :
    childList st i = (List.range l.length).filter fun j => pidOf l j == idOf l i := by
  obtain ⟨-, hchild, -⟩ := hinv
  rw [childList, hchild i, expChild_getD, expChildL]
  apply List.filter_congr
  intro j hj
  rw [List.mem_range] at hj
  by_cases hpj : pidOf l j = idOf l i
  · have hnz : pidOf l j ≠ 0 := by rw [hpj]; exact HZ i hi
    have hpx : pidx l j = some i := by
      have hs := pidx_isSome l j i hi (by rw [hpj])
      rw [Option.isSome_iff_exists] at hs
      obtain ⟨i', hi'⟩ := hs
      obtain ⟨hlt, hid⟩ := pidx_some l j i' hi'
      have heq : i' = i := HU i' i hlt hi (by rw [hid, hpj])
      rwa [heq] at hi'
    simp [hpx, hnz, hpj]
    exact HZ i hi
  · cases hpx : pidx l j with
    | none => simp [hpj]
    | some i'' =>
      have hne : i'' ≠ i := by
        intro hcon
        subst hcon
        obtain ⟨-, hid⟩ := pidx_some l j i'' hpx
        exact hpj (by rw [← hid])
      have h1 : (i'' == i) = false := by simpa using hne
      have h2 : (pidOf l j == idOf l i) = false := by simpa using hpj
      simp [h1, h2]

theorem count_nodup (l : List Nat) (h : l.Nodup) (i : Nat) :
    l.count i = if i ∈ l then 1 else 0 := by
  induction l with
  | nil => simp
  | cons a t ih =>
    rw [List.nodup_cons] at h
    obtain ⟨ha, ht⟩ := h
    rw [List.count_cons]
    by_cases hia : i = a
    · subst hia
      have : i ∉ t := ha
      simp [ih ht, this]
    · simp only [List.mem_cons, ih ht]
      have : (i == a) = false := by simpa using hia
      simp [this, hia]
      exact Ne.symm hia

theorem sum_map_single (f : Nat → Nat) (l : List Nat) (j0 : Nat) (hj0 : j0 ∈ l)
    (hnd : l.Nodup) (hf : ∀ j ∈ l, f j = if j = j0 then 1 else 0) :
    (l.map f).sum = 1 := by
  induction l with
  | nil => simp at hj0
  | cons a t ih =>
    rw [List.nodup_cons] at hnd
    obtain ⟨ha, ht⟩ := hnd
    rcases List.mem_cons.mp hj0 with heq | hmem
    · subst heq
      have hfa : f j0 = 1 := by rw [hf j0 (by simp)]; simp
      have hzero : ∀ x ∈ t.map f, x = 0 := by
        intro x hx
        rw [List.mem_map] at hx
        obtain ⟨j, hj, rfl⟩ := hx
        rw [hf j (by simp [hj])]
        have hja : j ≠ j0 := fun hc => ha (hc ▸ hj)
        simp [hja]
      simp [hfa, List.sum_eq_zero hzero]
    · have hane : a ≠ j0 := fun hc => ha (hc ▸ hmem)
      have hfa : f a = 0 := by rw [hf a (by simp)]; simp [hane]
      simp [hfa, ih hmem ht (fun j hj => hf j (by simp [hj]))]

theorem roots_mem (dm : String → Option RMeta) (l : List BackRecord) (st : BTState)
    (hinv : Inv dm l l.length st) (i : Nat) :
    i ∈ st.roots ↔ (i < l.length ∧ pidOf l i = 0) := by
  rw [hinv.1, expRoots]
  simp [List.mem_filter, List.mem_range]

theorem childList_mem (dm : String → Option RMeta) (l : List BackRecord) (st : BTState)
    (hinv : Inv dm l l.length st) (i j : Nat) :
    i ∈ childList st j ↔ (i < l.length ∧ pidOf l i ≠ 0 ∧ pidx l i = some j) := by
  rw [childList, hinv.2.1 j, expChild_getD, expChildL]
  simp [List.mem_filter, List.mem_range, and_assoc]

theorem roots_nodup (dm : String → Option RMeta) (l : List BackRecord) (st : BTState)
    (hinv : Inv dm l l.length st) : st.roots.Nodup := by
  rw [hinv.1, expRoots]
  exact (List.nodup_range _).filter _

theorem childList_nodup (dm : String → Option RMeta) (l : List BackRecord) (st : BTState)
    (hinv : Inv dm l l.length st) (j : Nat) : (childList st j).Nodup := by
  rw [childList, hinv.2.1 j, expChild_getD, expChildL]
  exact (List.nodup_range _).filter _

theorem occCount_one (dm : String → Option RMeta) (l : List BackRecord) (st : BTState)
    (hinv : Inv dm l l.length st)
    (HC : ∀ i, i < l.length → pidOf l i ≠ 0 → (pidx l i).isSome = true)
    (i : Nat) (hi : i < l.length) : occCount st l.length i = 1 := by
  rw [occCount]
  by_cases h0 : pidOf l i = 0
  · have hr : i ∈ st.roots := (roots_mem dm l st hinv i).mpr ⟨hi, h0⟩
    have hcount : st.roots.count i = 1 := by
      rw [count_nodup _ (roots_nodup dm l st hinv) i]
      simp [hr]
    have hzero : ∀ x ∈ (List.range l.length).map fun j => (childList st j).count i, x = 0 := by
      intro x hx
      rw [List.mem_map] at hx
      obtain ⟨j, hj, rfl⟩ := hx
      rw [count_nodup _ (childList_nodup dm l st hinv j) i]
      have hnm : i ∉ childList st j := by
        rw [childList_mem dm l st hinv i j]
        rintro ⟨-, hne, -⟩
        exact hne h0
      simp [hnm]
    rw [hcount, List.sum_eq_zero hzero]
    rfl
  · have hs := HC i hi h0
    rw [Option.isSome_iff_exists] at hs
    obtain ⟨j0, hj0⟩ := hs
    have hj0n : j0 < l.length := (pidx_some l i j0 hj0).1
    have hroots0 : st.roots.count i = 0 := by
      rw [count_nodup _ (roots_nodup dm l st hinv) i]
      have hnm : i ∉ st.roots := by
        rw [roots_mem dm l st hinv i]
        rintro ⟨-, hc⟩
        exact h0 hc
      simp [hnm]
    have hsum : ((List.range l.length).map fun j => (childList st j).count i).sum = 1 := by
      apply sum_map_single _ _ j0 (List.mem_range.mpr hj0n) (List.nodup_range _)
      intro j hj
      rw [count_nodup _ (childList_nodup dm l st hinv j) i]
      by_cases hjj : j = j0
      · subst hjj
        have hmem : i ∈ childList st j := (childList_mem dm l st hinv i j).mpr ⟨hi, h0, hj0⟩
        simp [hmem]
      · have hnm : i ∉ childList st j := by
          rw [childList_mem dm l st hinv i j]
          rintro ⟨-, -, hpx⟩
          rw [hj0] at hpx
          exact hjj (Option.some.inj hpx).symm
        simp [hnm, hjj]
    rw [hroots0, hsum]

theorem reach_of_rooted (dm : String → Option RMeta) (l : List BackRecord) (st : BTState)
    (hinv : Inv dm l l.length st) :
    ∀ (fuel i : Nat), i < l.length → rootedB l fuel i = true →
      reachUp st l.length fuel i = true := by
  intro fuel
  induction fuel with
  | zero => intro i _ h; rw [rootedB] at h; exact absurd h (by simp)
  | succ fuel ih =>
    intro i hi hr
    rw [rootedB] at hr
    rw [reachUp]
    by_cases h0 : pidOf l i = 0
    · have hmem : i ∈ st.roots := (roots_mem dm l st hinv i).mpr ⟨hi, h0⟩
      have hc : st.roots.contains i = true := by
        simpa [List.elem_iff] using hmem
      rw [hc, Bool.true_or]
    · have h0' : (pidOf l i == 0) = false := by simpa using h0
      rw [h0'] at hr
      simp only [Bool.false_or] at hr
      cases hj : pidx l i with
      | none => rw [hj] at hr; simp at hr
      | some j =>
        rw [hj] at hr
        have hjn : j < l.length := (pidx_some l i j hj).1
        have hrj := ih j hjn hr
        have hmem : i ∈ childList st j := (childList_mem dm l st hinv i j).mpr ⟨hi, h0, hj⟩
        have hcont : (childList st j).contains i = true := by
          simpa [List.elem_iff] using hmem
        have hany : ((List.range l.length).any fun j' =>
            (childList st j').contains i && reachUp st l.length fuel j') = true := by
          rw [List.any_eq_true]
          exact ⟨j, List.mem_range.mpr hjn, by rw [hcont, hrj]; rfl⟩
        rw [hany, Bool.or_true]

/-- C2 — amended: for every flat backend record list with pairwise-distinct
nonzero ids, consistent parent references, and acyclic parent chains (each
reaches a `pid = 0` record within `|L|` hops), the builder succeeds and the
shared object graph it returns is a forest over the records: the roots are
exactly the `pid = 0` records in input order, each record's children are
exactly the records whose `pid` equals its `id` in input order, and every
record occurs exactly once (root list plus all children lists) and is
reachable from a root. -/
theorem c2_tree_builder (dm : String → Option RMeta) (l : List BackRecord)
    (HU : ∀ i, i < l.length → ∀ j, j < l.length → idOf l i = idOf l j → i = j)
    (HZ : ∀ i, i < l.length → idOf l i ≠ 0)
    (HC : ∀ i, i < l.length → pidOf l i ≠ 0 → (pidx l i).isSome = true)
    (HR : ∀ i, i < l.length → rootedB l l.length i = true) :
    ∃ st, handleBackMenuTree dm l = .ok st ∧
      st.roots = ((List.range l.length).filter fun i => pidOf l i == 0) ∧
      (∀ i, i < l.length →
        childList st i = (List.range l.length).filter fun j => pidOf l j == idOf l i) ∧
      (∀ i, i < l.length → occCount st l.length i = 1) ∧
      (∀ i, i < l.length → reachUp st l.length l.length i = true) := by
  have hok : ∀ i, i < l.length → (pidOf l i = 0 ∨ (pidx l i).isSome = true) := by
    intro i hi
    by_cases h0 : pidOf l i = 0
    · exact Or.inl h0
    · exact Or.inr (HC i hi h0)
  obtain ⟨st, hok2, hinv⟩ := handleBackMenuTree_inv dm l hok
  refine ⟨st, hok2, hinv.1, ?_, ?_, ?_⟩
  · exact fun i hi => childList_eq dm l st hinv (fun i j h1 h2 => HU i h1 j h2) HZ i hi
  · exact fun i hi => occCount_one dm l st hinv HC i hi
  · exact fun i hi => reach_of_rooted dm l st hinv l.length i hi (HR i hi)

/-- C2 — counterexample. The claim's hypothesis (every nonzero `pid` equals
some record's `id`) admits a self-parenting cycle, duplicate ids and a zero
id; on those the claimed conclusion fails: the cyclic record is unreachable
from any root (the forest is empty), a duplicate-id record does not carry
the children the claim prescribes, and a `pid = 0` record is a root yet the
record with `id = 0` does not list it as a child. -/
theorem c2_counterexample :
    (consistentB cycL = true ∧ c2ConclusionB d0 cycL = false) ∧
    (consistentB dupL = true ∧ c2ConclusionB d0 dupL = false) ∧
    (consistentB zeroIdL = true ∧ c2ConclusionB d0 zeroIdL = false) := by
  decide

/-- Witness for C2 on a four-record list with distinct nonzero ids and
acyclic parent chains. -/
theorem c2_tree_builder_witness :
    ((∀ i, i < goodL.length → ∀ j, j < goodL.length → idOf goodL i = idOf goodL j → i = j) ∧
     (∀ i, i < goodL.length → idOf goodL i ≠ 0) ∧
     (∀ i, i < goodL.length → pidOf goodL i ≠ 0 → (pidx goodL i).isSome = true) ∧
     (∀ i, i < goodL.length → rootedB goodL goodL.length i = true)) ∧
    (∃ st, handleBackMenuTree d0 goodL = .ok st ∧
      st.roots = ((List.range goodL.length).filter fun i => pidOf goodL i == 0) ∧
      (∀ i, i < goodL.length →
        childList st i =
          (List.range goodL.length).filter fun j => pidOf goodL j == idOf goodL i) ∧
      (∀ i, i < goodL.length → occCount st goodL.length i = 1) ∧
      (∀ i, i < goodL.length → reachUp st goodL.length goodL.length i = true)) :=
  ⟨⟨by decide, by decide, by decide, by decide⟩,
   c2_tree_builder d0 goodL (by decide) (by decide) (by decide) (by decide)⟩

end PermStore
